import Mathlib

/-!
Verification of `convert_old_notes.py`, a tool that matches old literature-note
citation keys against a new bibliography and rewrites an Obsidian vault.

Bibliographic records are embedded as association lists from field names to
string values (Python dicts preserving insertion order).  Machine floats used
by the Python code only ever hold small non-negative integers (edit-distance
sums and field counts) and their quotients, so they are modelled exactly by
`ℕ` and `ℚ`.
-/

/-- A bibliographic record: a mapping from field names to string values,
as produced by `bibtexparser` (dict embedded as an ordered association list). -/
def Record : Type := List (String × String)

instance : Membership (String × String) Record := inferInstanceAs (Membership _ (List _))

/-- `key in record` test of the Python code. -/
def hasField (r : Record) (k : String) : Bool :=
  (List.lookup k r).isSome

/-- `record[key]` of the Python code (defaulting to `""`, only used when present). -/
def getField (r : Record) (k : String) : String :=
  (List.lookup k r).getD ""

/-- `check_uids(old_cite, new_cite)` from `convert_old_notes.py`:
a cascade of identifier checks, first applicable rule decides. -/
def check_uids (old_cite new_cite : Record) : Bool :=
  if hasField old_cite "doi" && hasField new_cite "doi" then
    getField old_cite "doi" == getField new_cite "doi"
  else if hasField old_cite "issn" && hasField new_cite "issn" then
    getField old_cite "issn" == getField new_cite "issn"
  else if hasField old_cite "year" && hasField new_cite "year" then
    if hasField old_cite "month" && hasField new_cite "month" then
      (getField old_cite "year" == getField new_cite "year") &&
        (getField old_cite "month" == getField new_cite "month")
    else
      getField old_cite "year" == getField new_cite "year"
  else if hasField old_cite "doi" && !hasField new_cite "doi" then
    false
  else
    true

/-- `editdistance.eval` on two strings: character-level Levenshtein distance
with unit costs. -/
def editDistEval (a b : String) : ℕ :=
  levenshtein Levenshtein.defaultCost a.data b.data

/-- Body of the field-comparison loop of `map_bibs`: skip a field absent from
the new record, otherwise add its edit distance to `sim` and bump `n_comp`. -/
def scoreStep (new_cite : Record) (acc : ℕ × ℕ) (kv : String × String) : ℕ × ℕ :=
  match List.lookup kv.1 new_cite with
  | none => acc
  | some v => (acc.1 + editDistEval kv.2 v, acc.2 + 1)

/-- The field-comparison loop of `map_bibs`: fold over the old record's fields
accumulating `(sim, n_comp)` starting from `(0, 0)`. -/
def scorePair (old_cite new_cite : Record) : ℕ × ℕ :=
  List.foldl (scoreStep new_cite) (0, 0) old_cite

/-- One row of the `comp_data` data frame that survives `dropna`. -/
structure Row where
  old : String
  new : String
  sim : ℕ
  n_comp : ℕ
  n_fields_old : ℕ
  n_fields_new : ℕ
deriving DecidableEq

/-- `bib.entries_dict[ck]` of `bibtexparser`: the dict is keyed by the `ID`
field, later entries overwriting earlier ones on duplicate IDs. -/
def entriesDict (bib : List Record) (ck : String) : Option Record :=
  List.find? (fun e => List.lookup "ID" e == some ck) bib.reverse

/-- Inner loop of `map_bibs` over the new bibliography for one old record:
pairs failing `check_uids` are skipped (`continue`), surviving pairs get a
fully-populated row of `comp_data`. -/
def rowsOf (bib2 : List Record) (ck : String) (oc : Record) : List Row :=
  bib2.filterMap (fun nc =>
    if check_uids oc nc then
      some ⟨ck, getField nc "ID", (scorePair oc nc).1, (scorePair oc nc).2,
            oc.length, nc.length⟩
    else none)

/-- `map_bibs` from `convert_old_notes.py`, after `dropna`: the list of
fully-populated rows, in data-frame index order (old key order of
`cite_list`, new keys in bibliography order).  Citation keys missing from
the first bibliography contribute no rows. -/
def map_bibs (cite_list : List String) (bib1 bib2 : List Record) : List Row :=
  cite_list.flatMap (fun ck =>
    match entriesDict bib1 ck with
    | none => []
    | some oc => rowsOf bib2 ck oc)

lemma lookup_mem {l : List (String × String)} {k v : String}
    (h : List.lookup k l = some v) : (k, v) ∈ l := by
  induction l with
  | nil => simp [List.lookup] at h
  | cons kv rest ih =>
    obtain ⟨k', v'⟩ := kv
    rw [List.lookup] at h
    cases hk : (k == k') with
    | true =>
      rw [hk] at h
      injection h with h
      subst h
      have hkk : k = k' := beq_iff_eq.mp hk
      subst hkk
      exact List.mem_cons_self _ _
    | false =>
      rw [hk] at h
      exact List.mem_cons_of_mem _ (ih h)

lemma scorePair_foldl (nc : Record) (l : List (String × String)) (s n : ℕ) :
    List.foldl (scoreStep nc) (s, n) l =
      (s + ((l.filter (fun kv => hasField nc kv.1)).map
              (fun kv => editDistEval kv.2 (getField nc kv.1))).sum,
       n + (l.filter (fun kv => hasField nc kv.1)).length) := by
  induction l generalizing s n with
  | nil => simp
  | cons kv rest ih =>
    cases h : List.lookup kv.1 nc with
    | none =>
      have hf : hasField nc kv.1 = false := by simp [hasField, h]
      simp [scoreStep, h, hf, ih]
    | some v =>
      have hf : hasField nc kv.1 = true := by simp [hasField, h]
      have hg : getField nc kv.1 = v := by simp [getField, h]
      simp only [List.foldl_cons, scoreStep, h, List.filter_cons, hf, if_pos,
        List.map_cons, List.sum_cons, List.length_cons, ih, hg]
      simp only [Prod.mk.injEq]
      constructor
      · omega
      · omega

/-- Characterization of the field loop: `sim` is the sum of character-level
Levenshtein distances over exactly the common fields, `n_comp` their count. -/
lemma scorePair_eq (oc nc : Record) :
    scorePair oc nc =
      (((oc.filter (fun kv => hasField nc kv.1)).map
          (fun kv => editDistEval kv.2 (getField nc kv.1))).sum,
       (oc.filter (fun kv => hasField nc kv.1)).length) := by
  have := scorePair_foldl nc oc 0 0
  simpa [scorePair] using this

lemma scorePair_pos {oc nc : Record} (ho : hasField oc "ID" = true)
    (hn : hasField nc "ID" = true) : 0 < (scorePair oc nc).2 := by
  rw [scorePair_eq]
  simp only
  rw [List.length_pos]
  intro hemp
  obtain ⟨v, hm⟩ : ∃ x, ("ID", x) ∈ oc := by simpa [hasField] using ho
  have : ("ID", v) ∈ oc.filter (fun kv => hasField nc kv.1) := by
    rw [List.mem_filter]
    exact ⟨hm, hn⟩
  rw [hemp] at this
  simp at this

lemma mem_rowsOf {b2 : List Record} {ck : String} {oc : Record} {row : Row}
    (h : row ∈ rowsOf b2 ck oc) :
    ∃ nc ∈ b2, check_uids oc nc = true ∧
      row = ⟨ck, getField nc "ID", (scorePair oc nc).1, (scorePair oc nc).2,
             oc.length, nc.length⟩ := by
  rw [rowsOf, List.mem_filterMap] at h
  obtain ⟨nc, hnc, hrow⟩ := h
  by_cases hg : check_uids oc nc = true
  · rw [if_pos hg] at hrow
    injection hrow with hrow
    exact ⟨nc, hnc, hg, hrow.symm⟩
  · rw [if_neg hg] at hrow
    cases hrow

lemma rowsOf_mem {b2 : List Record} {ck : String} {oc : Record} {nc : Record}
    (hnc : nc ∈ b2) (hg : check_uids oc nc = true) :
    (⟨ck, getField nc "ID", (scorePair oc nc).1, (scorePair oc nc).2,
      oc.length, nc.length⟩ : Row) ∈ rowsOf b2 ck oc := by
  rw [rowsOf, List.mem_filterMap]
  exact ⟨nc, hnc, by rw [if_pos hg]⟩

lemma mem_map_bibs {cl : List String} {b1 b2 : List Record} {row : Row}
    (h : row ∈ map_bibs cl b1 b2) :
    ∃ ck ∈ cl, ∃ oc, entriesDict b1 ck = some oc ∧ row ∈ rowsOf b2 ck oc := by
  rw [map_bibs, List.mem_flatMap] at h
  obtain ⟨ck, hck, hrow⟩ := h
  refine ⟨ck, hck, ?_⟩
  cases hd : entriesDict b1 ck with
  | none => rw [hd] at hrow; cases hrow
  | some oc => rw [hd] at hrow; exact ⟨oc, rfl, hrow⟩

lemma map_bibs_mem {cl : List String} {b1 b2 : List Record} {ck : String}
    {oc : Record} {row : Row} (hck : ck ∈ cl) (hd : entriesDict b1 ck = some oc)
    (hrow : row ∈ rowsOf b2 ck oc) : row ∈ map_bibs cl b1 b2 := by
  rw [map_bibs, List.mem_flatMap]
  exact ⟨ck, hck, by rw [hd]; exact hrow⟩

lemma rowsOf_old {b2 : List Record} {ck : String} {oc : Record} {row : Row}
    (h : row ∈ rowsOf b2 ck oc) : row.old = ck := by
  obtain ⟨nc, _, _, hrow⟩ := mem_rowsOf h
  rw [hrow]

lemma entriesDict_ID {b1 : List Record} {ck : String} {oc : Record}
    (h : entriesDict b1 ck = some oc) : List.lookup "ID" oc = some ck := by
  have := List.find?_some h
  exact beq_iff_eq.mp this

lemma entriesDict_hasID {b1 : List Record} {ck : String} {oc : Record}
    (h : entriesDict b1 ck = some oc) : hasField oc "ID" = true := by
  simp [hasField, entriesDict_ID h]

/-- `bib_dists["sim"]/bib_dists["n_comp"]` for one row, exact-rational model of
the float division performed by pandas. -/
def avgDist (r : Row) : ℚ := (r.sim : ℚ) / (r.n_comp : ℚ)

/-- The running comparison of `idxmin`: keep the current best row, replace it
only when a strictly smaller average distance comes along (so the first
occurrence of the minimum wins, as `idxmin` documents). -/
def better (best y : Row) : Row :=
  if avgDist y < avgDist best then y else best

/-- `idxmin` over one `groupby("old")` group: index of the first row attaining
the minimal average distance; `none` for an empty group. -/
def pickFirstMin (l : List Row) : Option Row :=
  match l with
  | [] => none
  | x :: xs => some (List.foldl better x xs)

/-- The rows of the data frame belonging to one old citation key. -/
def rowsFor (rows : List Row) (ck : String) : List Row :=
  rows.filter (fun r => r.old == ck)

/-- The `cite_map` dict written to `matches.json`: for every old key whose
group of surviving rows is non-empty, the new key of the `idxmin` row. -/
def cite_map (cl : List String) (b1 b2 : List Record) : List (String × String) :=
  cl.filterMap (fun ck =>
    (pickFirstMin (rowsFor (map_bibs cl b1 b2) ck)).map (fun r => (ck, r.new)))

lemma better_le_left (b y : Row) : avgDist (better b y) ≤ avgDist b := by
  rw [better]
  split
  · next h => exact le_of_lt h
  · exact le_refl _

lemma better_le_right (b y : Row) : avgDist (better b y) ≤ avgDist y := by
  rw [better]
  split
  · exact le_refl _
  · next h => exact le_of_not_lt h

lemma better_mem (b y : Row) : better b y = b ∨ better b y = y := by
  rw [better]
  split
  · right; rfl
  · left; rfl

lemma foldl_better_mem (xs : List Row) (b : Row) :
    List.foldl better b xs = b ∨ List.foldl better b xs ∈ xs := by
  induction xs generalizing b with
  | nil => left; rfl
  | cons y ys ih =>
    rw [List.foldl_cons]
    rcases ih (better b y) with h | h
    · rw [h]
      rcases better_mem b y with h' | h'
      · left; exact h'
      · right; rw [h']; exact List.mem_cons_self _ _
    · right; exact List.mem_cons_of_mem _ h

lemma foldl_better_le_init (xs : List Row) (b : Row) :
    avgDist (List.foldl better b xs) ≤ avgDist b := by
  induction xs generalizing b with
  | nil => exact le_refl _
  | cons y ys ih =>
    rw [List.foldl_cons]
    exact le_trans (ih (better b y)) (better_le_left b y)

lemma foldl_better_le_all (xs : List Row) (b : Row) :
    ∀ y ∈ xs, avgDist (List.foldl better b xs) ≤ avgDist y := by
  induction xs generalizing b with
  | nil => intro y hy; cases hy
  | cons z zs ih =>
    intro y hy
    rw [List.foldl_cons]
    rcases List.mem_cons.mp hy with h | h
    · subst h
      exact le_trans (foldl_better_le_init zs (better b y)) (better_le_right b y)
    · exact ih (better b z) y h

lemma foldl_better_stays (post : List Row) (r : Row)
    (h : ∀ q ∈ post, ¬ avgDist q < avgDist r) : List.foldl better r post = r := by
  induction post with
  | nil => rfl
  | cons q qs ih =>
    rw [List.foldl_cons]
    have hq : better r q = r := by
      rw [better, if_neg (h q (List.mem_cons_self _ _))]
    rw [hq]
    exact ih (fun q' hq' => h q' (List.mem_cons_of_mem _ hq'))

lemma foldl_better_first (pre : List Row) (r : Row) (post : List Row) (b : Row)
    (hb : avgDist r < avgDist b)
    (hpre : ∀ p ∈ pre, avgDist r < avgDist p)
    (hpost : ∀ q ∈ post, ¬ avgDist q < avgDist r) :
    List.foldl better b (pre ++ r :: post) = r := by
  induction pre generalizing b with
  | nil =>
    rw [List.nil_append, List.foldl_cons]
    have hr : better b r = r := by rw [better, if_pos hb]
    rw [hr]
    exact foldl_better_stays post r hpost
  | cons p ps ih =>
    rw [List.cons_append, List.foldl_cons]
    have : avgDist r < avgDist (better b p) := by
      rcases better_mem b p with h | h <;> rw [h]
      · exact hb
      · exact hpre p (List.mem_cons_self _ _)
    exact ih (better b p) this (fun p' hp' => hpre p' (List.mem_cons_of_mem _ hp'))

lemma pickFirstMin_min {l : List Row} (h : l ≠ []) :
    ∃ r, pickFirstMin l = some r ∧ r ∈ l ∧ ∀ q ∈ l, avgDist r ≤ avgDist q := by
  cases l with
  | nil => exact absurd rfl h
  | cons x xs =>
    refine ⟨List.foldl better x xs, rfl, ?_, ?_⟩
    · rcases foldl_better_mem xs x with h' | h'
      · rw [h']; exact List.mem_cons_self _ _
      · exact List.mem_cons_of_mem _ h'
    · intro q hq
      rcases List.mem_cons.mp hq with h' | h'
      · rw [h']; exact foldl_better_le_init xs x
      · exact foldl_better_le_all xs x q h'

lemma pickFirstMin_first {pre : List Row} {r : Row} {post : List Row}
    (hpre : ∀ p ∈ pre, avgDist r < avgDist p)
    (hpost : ∀ q ∈ post, avgDist r ≤ avgDist q) :
    pickFirstMin (pre ++ r :: post) = some r := by
  have hpost' : ∀ q ∈ post, ¬ avgDist q < avgDist r :=
    fun q hq => not_lt_of_le (hpost q hq)
  cases pre with
  | nil =>
    rw [List.nil_append, pickFirstMin]
    rw [foldl_better_stays post r hpost']
  | cons p ps =>
    rw [List.cons_append, pickFirstMin]
    rw [foldl_better_first ps r post p (hpre p (List.mem_cons_self _ _))
      (fun p' hp' => hpre p' (List.mem_cons_of_mem _ hp')) hpost']

lemma cite_map_intro {cl : List String} {b1 b2 : List Record} {ck : String}
    {r : Row} (hck : ck ∈ cl)
    (hpick : pickFirstMin (rowsFor (map_bibs cl b1 b2) ck) = some r) :
    (ck, r.new) ∈ cite_map cl b1 b2 := by
  rw [cite_map, List.mem_filterMap]
  exact ⟨ck, hck, by rw [hpick]; rfl⟩

lemma cite_map_elim {cl : List String} {b1 b2 : List Record} {ck v : String}
    (h : (ck, v) ∈ cite_map cl b1 b2) :
    ∃ r, pickFirstMin (rowsFor (map_bibs cl b1 b2) ck) = some r ∧ v = r.new := by
  rw [cite_map, List.mem_filterMap] at h
  obtain ⟨a, _, hsome⟩ := h
  cases hp : pickFirstMin (rowsFor (map_bibs cl b1 b2) a) with
  | none => rw [hp] at hsome; cases hsome
  | some r =>
    rw [hp] at hsome
    injection hsome with hsome
    have h1 : a = ck := congrArg Prod.fst hsome
    have h2 : r.new = v := congrArg Prod.snd hsome
    subst h1
    exact ⟨r, hp, h2.symm⟩

/-- Sample records used by the concrete witnesses below. -/
def exOld : Record := [("ID", "a"), ("year", "2001")]

def exNew : Record := [("ID", "x"), ("year", "2001")]

def exNew2 : Record := [("ID", "y"), ("year", "2001")]

/-- C1: the Identifier Gate `check_uids` evaluates its rules top to bottom,
first applicable rule deciding: both DOIs present — equal DOI strings; else
both ISSNs present — equal ISSN strings; else both years present — equal
years (and equal months when both months are present); else old DOI present
and new absent — false; else true.  In particular identical DOIs make records
comparable whatever the years, and mismatched DOIs never do. -/
theorem check_uids_spec (a b : Record) :
    ((hasField a "doi" && hasField b "doi") = true →
      check_uids a b = (getField a "doi" == getField b "doi")) ∧
    ((hasField a "doi" && hasField b "doi") = false →
      (hasField a "issn" && hasField b "issn") = true →
      check_uids a b = (getField a "issn" == getField b "issn")) ∧
    ((hasField a "doi" && hasField b "doi") = false →
      (hasField a "issn" && hasField b "issn") = false →
      (hasField a "year" && hasField b "year") = true →
      ((hasField a "month" && hasField b "month") = true →
        check_uids a b = ((getField a "year" == getField b "year") &&
          (getField a "month" == getField b "month"))) ∧
      ((hasField a "month" && hasField b "month") = false →
        check_uids a b = (getField a "year" == getField b "year"))) ∧
    ((hasField a "doi" && hasField b "doi") = false →
      (hasField a "issn" && hasField b "issn") = false →
      (hasField a "year" && hasField b "year") = false →
      (hasField a "doi" && !hasField b "doi") = true →
      check_uids a b = false) ∧
    ((hasField a "doi" && hasField b "doi") = false →
      (hasField a "issn" && hasField b "issn") = false →
      (hasField a "year" && hasField b "year") = false →
      (hasField a "doi" && !hasField b "doi") = false →
      check_uids a b = true) ∧
    (hasField a "doi" = true → hasField b "doi" = true →
      getField a "doi" = getField b "doi" → check_uids a b = true) ∧
    (hasField a "doi" = true → hasField b "doi" = true →
      getField a "doi" ≠ getField b "doi" → check_uids a b = false) := by
  refine ⟨?_, ?_, ?_, ?_, ?_, ?_, ?_⟩
  · intro h1
    rw [check_uids, if_pos h1]
  · intro h1 h2
    rw [check_uids, h1, if_neg (by simp), if_pos h2]
  · intro h1 h2 h3
    constructor
    · intro h4
      rw [check_uids, h1, h2, if_neg (by simp), if_neg (by simp), if_pos h3,
        if_pos h4]
    · intro h4
      rw [check_uids, h1, h2, if_neg (by simp), if_neg (by simp), if_pos h3,
        if_neg (by simp [h4])]
  · intro h1 h2 h3 h4
    rw [check_uids, h1, h2, h3, if_neg (by simp), if_neg (by simp),
      if_neg (by simp), if_pos h4]
  · intro h1 h2 h3 h4
    rw [check_uids, h1, h2, h3, h4, if_neg (by simp), if_neg (by simp),
      if_neg (by simp), if_neg (by simp)]
  · intro h1 h2 h3
    rw [check_uids, if_pos (by simp [h1, h2])]
    simp [h3]
  · intro h1 h2 h3
    rw [check_uids, if_pos (by simp [h1, h2])]
    simp [h3]

/-- Witness for C1: identical DOIs match despite different years; different
DOIs never match despite identical years. -/
theorem check_uids_spec_w :
    check_uids [("doi", "10.1/x"), ("year", "1999")]
        [("doi", "10.1/x"), ("year", "2004")] = true ∧
    check_uids [("doi", "10.1/x"), ("year", "1999")]
        [("doi", "10.1/y"), ("year", "1999")] = false :=
  ⟨(check_uids_spec _ _).2.2.2.2.2.1 (by decide) (by decide) (by decide),
   (check_uids_spec _ _).2.2.2.2.2.2 (by decide) (by decide) (by decide)⟩

/-- C2: every `(old, new)` row in the output of `map_bibs` originates from a
pair that passed the Identifier Gate and carries that pair's score, and
(given that `bibtexparser` puts an `ID` field in every entry) has at least
one compared field; a pair failing the gate never appears as a row. -/
theorem map_bibs_gate_invariant (cl : List String) (b1 b2 : List Record)
    (hID : ∀ rec ∈ b2, hasField rec "ID" = true) :
    (∀ row ∈ map_bibs cl b1 b2,
      ∃ oc nc, entriesDict b1 row.old = some oc ∧ nc ∈ b2 ∧
        row.new = getField nc "ID" ∧ check_uids oc nc = true ∧
        row.sim = (scorePair oc nc).1 ∧ row.n_comp = (scorePair oc nc).2 ∧
        0 < row.n_comp) ∧
    (∀ ck oc nc, entriesDict b1 ck = some oc → nc ∈ b2 →
      (b2.map (fun rec => getField rec "ID")).Nodup →
      check_uids oc nc = false →
      ∀ row ∈ map_bibs cl b1 b2, ¬(row.old = ck ∧ row.new = getField nc "ID")) := by
  constructor
  · intro row hrow
    obtain ⟨ck, _, oc, hd, hro⟩ := mem_map_bibs hrow
    obtain ⟨nc, hnc, hg, hrow_eq⟩ := mem_rowsOf hro
    have hold : row.old = ck := rowsOf_old hro
    refine ⟨oc, nc, by rw [hold]; exact hd, hnc, ?_, hg, ?_, ?_, ?_⟩
    · rw [hrow_eq]
    · rw [hrow_eq]
    · rw [hrow_eq]
    · rw [hrow_eq]
      exact scorePair_pos (entriesDict_hasID hd) (hID nc hnc)
  · intro ck oc nc hd hnc hnodup hfail row hrow hcontra
    obtain ⟨ck', _, oc', hd', hro⟩ := mem_map_bibs hrow
    obtain ⟨nc', hnc', hg', hrow_eq⟩ := mem_rowsOf hro
    have hold : row.old = ck' := rowsOf_old hro
    have hck : ck' = ck := by rw [← hold]; exact hcontra.1
    subst hck
    rw [hd'] at hd
    injection hd with hd
    subst hd
    have hnew : getField nc' "ID" = getField nc "ID" := by
      rw [hrow_eq] at hcontra
      exact hcontra.2
    have : nc' = nc :=
      List.inj_on_of_nodup_map hnodup hnc' hnc hnew
    subst this
    rw [hg'] at hfail
    cases hfail

/-- Witness for C2: a concrete surviving row with its gate-passing origin. -/
theorem map_bibs_gate_invariant_w :
    (Row.mk "a" "x" 1 2 2 2) ∈ map_bibs ["a"] [exOld] [exNew] ∧
    (∃ oc nc, entriesDict [exOld] (Row.mk "a" "x" 1 2 2 2).old = some oc ∧
      nc ∈ [exNew] ∧ (Row.mk "a" "x" 1 2 2 2).new = getField nc "ID" ∧
      check_uids oc nc = true ∧
      (Row.mk "a" "x" 1 2 2 2).sim = (scorePair oc nc).1 ∧
      (Row.mk "a" "x" 1 2 2 2).n_comp = (scorePair oc nc).2 ∧
      0 < (Row.mk "a" "x" 1 2 2 2).n_comp) :=
  ⟨by decide,
   (map_bibs_gate_invariant ["a"] [exOld] [exNew] (by decide)).1 _ (by decide)⟩

/-- C4: for a gate-passing pair, `sim` is the sum of character-level
Levenshtein distances over exactly the field names present in both records
and `n_comp` is their count; fields present in only one record contribute
nothing (the score equals the score over the common-field restriction). -/
theorem scorer_spec (oc nc : Record) (hnd : (oc.map Prod.fst).Nodup)
    (hg : check_uids oc nc = true) :
    (scorePair oc nc).1 =
      ((oc.filter (fun kv => hasField nc kv.1)).map
        (fun kv => levenshtein Levenshtein.defaultCost
          kv.2.data (getField nc kv.1).data)).sum ∧
    (scorePair oc nc).2 = (oc.filter (fun kv => hasField nc kv.1)).length ∧
    scorePair oc nc = scorePair (oc.filter (fun kv => hasField nc kv.1)) nc := by
  refine ⟨by rw [scorePair_eq]; simp [editDistEval], by rw [scorePair_eq], ?_⟩
  rw [scorePair_eq, scorePair_eq, List.filter_filter]
  simp [editDistEval]

/-- Witness for C4 on a concrete gate-passing pair. -/
theorem scorer_spec_w :
    (scorePair exOld exNew).1 =
      ((exOld.filter (fun kv => hasField exNew kv.1)).map
        (fun kv => levenshtein Levenshtein.defaultCost
          kv.2.data (getField exNew kv.1).data)).sum ∧
    (scorePair exOld exNew).2 =
      (exOld.filter (fun kv => hasField exNew kv.1)).length ∧
    scorePair exOld exNew =
      scorePair (exOld.filter (fun kv => hasField exNew kv.1)) exNew :=
  scorer_spec exOld exNew (by decide) (by decide)

/-- C3: an old record with a non-empty group of surviving rows is mapped to a
new key of minimal average distance among its group; an old key with an empty
group is absent from the output mapping altogether. -/
theorem selector_spec (cl : List String) (b1 b2 : List Record) (ck : String)
    (hID : ∀ rec ∈ b2, hasField rec "ID" = true) :
    (ck ∈ cl → rowsFor (map_bibs cl b1 b2) ck ≠ [] →
      ∃ r, r ∈ rowsFor (map_bibs cl b1 b2) ck ∧
        (ck, r.new) ∈ cite_map cl b1 b2 ∧
        ∀ q ∈ rowsFor (map_bibs cl b1 b2) ck, avgDist r ≤ avgDist q) ∧
    (rowsFor (map_bibs cl b1 b2) ck = [] →
      ∀ v, (ck, v) ∉ cite_map cl b1 b2) := by
  constructor
  · intro hck hne
    obtain ⟨r, hpick, hmem, hmin⟩ := pickFirstMin_min hne
    exact ⟨r, hmem, cite_map_intro hck hpick, hmin⟩
  · intro hemp v hv
    obtain ⟨r, hpick, _⟩ := cite_map_elim hv
    rw [hemp] at hpick
    cases hpick

/-- Witness for C3: a concrete old key with one surviving candidate is mapped
to it. -/
theorem selector_spec_w :
    ∃ r, r ∈ rowsFor (map_bibs ["a"] [exOld] [exNew]) "a" ∧
      ("a", r.new) ∈ cite_map ["a"] [exOld] [exNew] ∧
      ∀ q ∈ rowsFor (map_bibs ["a"] [exOld] [exNew]) "a",
        avgDist r ≤ avgDist q :=
  (selector_spec ["a"] [exOld] [exNew] "a" (by decide)).1 (by decide) (by decide)

/-- C5: on an exact tie of minimal average distances the selector picks the
first-encountered candidate row (pandas `idxmin` returns the first occurrence
of the minimum); being a pure function of the inputs, the choice is identical
across runs. -/
theorem selector_tiebreak (cl : List String) (b1 b2 : List Record) (ck : String)
    (pre post : List Row) (r : Row)
    (hID : ∀ rec ∈ b2, hasField rec "ID" = true)
    (hck : ck ∈ cl)
    (hdec : rowsFor (map_bibs cl b1 b2) ck = pre ++ r :: post)
    (hpre : ∀ p ∈ pre, avgDist r < avgDist p)
    (hmin : ∀ q ∈ rowsFor (map_bibs cl b1 b2) ck, avgDist r ≤ avgDist q) :
    pickFirstMin (rowsFor (map_bibs cl b1 b2) ck) = some r ∧
    (ck, r.new) ∈ cite_map cl b1 b2 := by
  have hpost : ∀ q ∈ post, avgDist r ≤ avgDist q := by
    intro q hq
    refine hmin q ?_
    rw [hdec]
    exact List.mem_append_right _ (List.mem_cons_of_mem _ hq)
  have hpick : pickFirstMin (rowsFor (map_bibs cl b1 b2) ck) = some r := by
    rw [hdec]
    exact pickFirstMin_first hpre hpost
  exact ⟨hpick, cite_map_intro hck hpick⟩

/-- Witness for C5: two candidates tie exactly; the first-encountered new key
`"x"` is chosen over the equally-distant `"y"`. -/
theorem selector_tiebreak_w :
    pickFirstMin (rowsFor (map_bibs ["a"] [exOld] [exNew, exNew2]) "a") =
      some (Row.mk "a" "x" 1 2 2 2) ∧
    ("a", (Row.mk "a" "x" 1 2 2 2).new) ∈
      cite_map ["a"] [exOld] [exNew, exNew2] :=
  selector_tiebreak ["a"] [exOld] [exNew, exNew2] "a"
    [] [Row.mk "a" "y" 1 2 2 2] (Row.mk "a" "x" 1 2 2 2)
    (by decide) (by decide) (by decide) (by decide)
    (by
      intro q hq
      have h : rowsFor (map_bibs ["a"] [exOld] [exNew, exNew2]) "a" =
          [Row.mk "a" "x" 1 2 2 2, Row.mk "a" "y" 1 2 2 2] := by decide
      rw [h] at hq
      simp only [List.mem_cons, List.not_mem_nil, or_false] at hq
      rcases hq with hq | hq <;> subst hq <;> norm_num [avgDist])

/-- Attempt of the wiki-link regular expression at the head of the text:
`headLink cs = some (inner, rest)` exactly when `cs` starts with two opening
brackets, then the greedy run `inner` of non-bracket-closing characters, then
two closing brackets, with `rest` the remainder after the match. -/
def headLink (cs : List Char) : Option (List Char × List Char) :=
  if cs.take 2 = ['[', '['] then
    let rest := cs.drop 2
    let rem := rest.dropWhile (fun c => c ≠ ']')
    if rem.take 2 = [']', ']'] then
      some (rest.takeWhile (fun c => c ≠ ']'), rem.drop 2)
    else none
  else none

lemma headLink_decomp {cs inner rest2 : List Char}
    (h : headLink cs = some (inner, rest2)) :
    cs = '[' :: '[' :: (inner ++ ']' :: ']' :: rest2) := by
  rw [headLink] at h
  by_cases h1 : cs.take 2 = ['[', '[']
  · rw [if_pos h1] at h
    by_cases h2 : ((cs.drop 2).dropWhile (fun c => c ≠ ']')).take 2 = [']', ']']
    · rw [if_pos h2] at h
      injection h with h
      have hinner : inner = (cs.drop 2).takeWhile (fun c => c ≠ ']') :=
        (congrArg Prod.fst h).symm
      have hrest2 : rest2 = ((cs.drop 2).dropWhile (fun c => c ≠ ']')).drop 2 :=
        (congrArg Prod.snd h).symm
      have hcs : cs = cs.take 2 ++ cs.drop 2 := (List.take_append_drop 2 cs).symm
      have hrem : (cs.drop 2).dropWhile (fun c => c ≠ ']') =
          ((cs.drop 2).dropWhile (fun c => c ≠ ']')).take 2 ++
            ((cs.drop 2).dropWhile (fun c => c ≠ ']')).drop 2 :=
        (List.take_append_drop 2 _).symm
      have hsplit : cs.drop 2 =
          (cs.drop 2).takeWhile (fun c => c ≠ ']') ++
            (cs.drop 2).dropWhile (fun c => c ≠ ']') :=
        (List.takeWhile_append_dropWhile _ _).symm
      calc cs = cs.take 2 ++ cs.drop 2 := hcs
        _ = '[' :: '[' :: (inner ++ ']' :: ']' :: rest2) := by
            rw [h1, hsplit, ← hinner, hrem, h2, ← hrest2]
            simp
    · rw [if_neg h2] at h
      cases h
  · rw [if_neg h1] at h
    cases h

lemma headLink_length {cs inner rest2 : List Char}
    (h : headLink cs = some (inner, rest2)) :
    cs.length = inner.length + 4 + rest2.length := by
  rw [headLink_decomp h]
  simp
  omega

/-- Fuel-driven scanner behind `findLinksAux` (the fuel, always instantiated
with the text length, makes the recursion structural; one unit is spent per
character or per whole match, so the text length always suffices). -/
def findLinksFuel : ℕ → List Char → ℕ → List (ℕ × List Char)
  | 0, _, _ => []
  | _ + 1, [], _ => []
  | fuel + 1, c :: rest, i =>
    match headLink (c :: rest) with
    | some (inner, rest2) =>
      (i, inner) :: findLinksFuel fuel rest2 (i + inner.length + 4)
    | none => findLinksFuel fuel rest (i + 1)

lemma findLinksFuel_nil (fuel i : ℕ) : findLinksFuel fuel [] i = [] := by
  cases fuel <;> rfl

lemma findLinksFuel_invar (n : ℕ) : ∀ cs : List Char, cs.length ≤ n →
    ∀ fuel fuel' : ℕ, cs.length ≤ fuel → cs.length ≤ fuel' → ∀ i : ℕ,
    findLinksFuel fuel cs i = findLinksFuel fuel' cs i := by
  induction n with
  | zero =>
    intro cs hcs fuel fuel' _ _ i
    have hnil : cs = [] := List.length_eq_zero.mp (Nat.le_zero.mp hcs)
    subst hnil
    rw [findLinksFuel_nil, findLinksFuel_nil]
  | succ n ih =>
    intro cs hcs fuel fuel' hf hf' i
    cases cs with
    | nil => rw [findLinksFuel_nil, findLinksFuel_nil]
    | cons c rest =>
      simp only [List.length_cons] at hcs hf hf'
      cases fuel with
      | zero => omega
      | succ f =>
        cases fuel' with
        | zero => omega
        | succ f' =>
          cases hl : headLink (c :: rest) with
          | some p =>
            obtain ⟨inner, rest2⟩ := p
            have hll := headLink_length hl
            simp only [List.length_cons] at hll
            rw [findLinksFuel, findLinksFuel, hl]
            show (i, inner) :: findLinksFuel f rest2 (i + inner.length + 4) =
              (i, inner) :: findLinksFuel f' rest2 (i + inner.length + 4)
            congr 1
            exact ih rest2 (by omega) f f' (by omega) (by omega) _
          | none =>
            rw [findLinksFuel, findLinksFuel, hl]
            show findLinksFuel f rest (i + 1) = findLinksFuel f' rest (i + 1)
            exact ih rest (by omega) f f' (by omega) (by omega) _

/-- `link_expr.finditer(contents)` of `handle_note`: all non-overlapping
wiki-link matches in text order, each as (start position, inner text).
Scanning advances one character on a failed attempt and past the whole match
on a successful one. -/
def findLinksAux (cs : List Char) (i : ℕ) : List (ℕ × List Char) :=
  findLinksFuel cs.length cs i

lemma findLinksAux_cons_some {c : Char} {rest inner rest2 : List Char} (i : ℕ)
    (h : headLink (c :: rest) = some (inner, rest2)) :
    findLinksAux (c :: rest) i =
      (i, inner) :: findLinksAux rest2 (i + inner.length + 4) := by
  have hll := headLink_length h
  simp only [List.length_cons] at hll
  rw [findLinksAux, findLinksAux, List.length_cons, findLinksFuel, h]
  show (i, inner) :: findLinksFuel rest.length rest2 (i + inner.length + 4) =
    (i, inner) :: findLinksFuel rest2.length rest2 (i + inner.length + 4)
  congr 1
  exact findLinksFuel_invar rest2.length rest2 (le_refl _) rest.length
    rest2.length (by omega) (le_refl _) _

lemma findLinksAux_cons_none {c : Char} {rest : List Char} (i : ℕ)
    (h : headLink (c :: rest) = none) :
    findLinksAux (c :: rest) i = findLinksAux rest (i + 1) := by
  rw [findLinksAux, findLinksAux, List.length_cons, findLinksFuel, h]

/-- One span replacement of the back-to-front loop of `handle_note`:
`new_contents[:lb+2] + new_citation + new_contents[ub-2:]`, with
`ub = lb + 4 + len(inner)`. -/
def patch (cmap : List (String × String)) (m : ℕ × List Char) (nc : List Char) :
    List Char :=
  nc.take (m.1 + 2) ++ ((List.lookup (String.mk m.2) cmap).getD "").data ++
    nc.drop (m.1 + 2 + m.2.length)

/-- The `citations` selected by `handle_note`: matches whose inner text is a
key of the citekey map (kept here in text order; the Python code prepends,
then iterates, which is the same as a right fold over this list). -/
def linkMatches (contents : List Char) (cmap : List (String × String)) :
    List (ℕ × List Char) :=
  (findLinksAux contents 0).filter
    (fun m => (List.lookup (String.mk m.2) cmap).isSome)

/-- The final `new_contents` computed by `handle_note`: all selected matches
replaced, processed back to front over the original match spans. -/
def rewriteLinks (contents : List Char) (cmap : List (String × String)) :
    List Char :=
  (linkMatches contents cmap).foldr (patch cmap) contents

/-- Modelled from the spec: replacement of one wiki-link inner text — the
mapped new key when the inner text is an old key, otherwise unchanged. -/
def replKey (cmap : List (String × String)) (inner : List Char) : List Char :=
  match List.lookup (String.mk inner) cmap with
  | some nk => nk.data
  | none => inner

/-- Fuel-driven worker behind `rewriteLinksSpec` (fuel always instantiated
with the text length, which suffices as each step consumes at least one
character). -/
def rewriteSpecFuel : ℕ → List (String × String) → List Char → List Char
  | 0, _, _ => []
  | _ + 1, _, [] => []
  | fuel + 1, cmap, c :: rest =>
    match headLink (c :: rest) with
    | some (inner, rest2) =>
      '[' :: '[' :: (replKey cmap inner ++ ']' :: ']' :: rewriteSpecFuel fuel cmap rest2)
    | none => c :: rewriteSpecFuel fuel cmap rest

lemma rewriteSpecFuel_nil (fuel : ℕ) (cmap : List (String × String)) :
    rewriteSpecFuel fuel cmap [] = [] := by
  cases fuel <;> rfl

lemma rewriteSpecFuel_invar (n : ℕ) : ∀ cs : List Char, cs.length ≤ n →
    ∀ fuel fuel' : ℕ, cs.length ≤ fuel → cs.length ≤ fuel' →
    ∀ cmap : List (String × String),
    rewriteSpecFuel fuel cmap cs = rewriteSpecFuel fuel' cmap cs := by
  induction n with
  | zero =>
    intro cs hcs fuel fuel' _ _ cmap
    have hnil : cs = [] := List.length_eq_zero.mp (Nat.le_zero.mp hcs)
    subst hnil
    rw [rewriteSpecFuel_nil, rewriteSpecFuel_nil]
  | succ n ih =>
    intro cs hcs fuel fuel' hf hf' cmap
    cases cs with
    | nil => rw [rewriteSpecFuel_nil, rewriteSpecFuel_nil]
    | cons c rest =>
      simp only [List.length_cons] at hcs hf hf'
      cases fuel with
      | zero => omega
      | succ f =>
        cases fuel' with
        | zero => omega
        | succ f' =>
          cases hl : headLink (c :: rest) with
          | some p =>
            obtain ⟨inner, rest2⟩ := p
            have hll := headLink_length hl
            simp only [List.length_cons] at hll
            rw [rewriteSpecFuel, rewriteSpecFuel, hl]
            show '[' :: '[' :: (replKey cmap inner ++ ']' :: ']' :: rewriteSpecFuel f cmap rest2) =
              '[' :: '[' :: (replKey cmap inner ++ ']' :: ']' :: rewriteSpecFuel f' cmap rest2)
            have hi := ih rest2 (by omega) f f' (by omega) (by omega) cmap
            rw [hi]
          | none =>
            rw [rewriteSpecFuel, rewriteSpecFuel, hl]
            show c :: rewriteSpecFuel f cmap rest = c :: rewriteSpecFuel f' cmap rest
            have hi := ih rest (by omega) f f' (by omega) (by omega) cmap
            rw [hi]

/-- Modelled from the spec: structural in-place rewrite of every wiki-link
whose inner text is an old key, leaving the delimiters and all other text
intact.  Used as the specification `rewriteLinks` is compared against. -/
def rewriteLinksSpec (cmap : List (String × String)) (cs : List Char) :
    List Char :=
  rewriteSpecFuel cs.length cmap cs

lemma rewriteLinksSpec_nil (cmap : List (String × String)) :
    rewriteLinksSpec cmap [] = [] := rfl

lemma rewriteLinksSpec_cons_some {c : Char} {rest inner rest2 : List Char}
    (cmap : List (String × String)) (h : headLink (c :: rest) = some (inner, rest2)) :
    rewriteLinksSpec cmap (c :: rest) =
      '[' :: '[' :: (replKey cmap inner ++ ']' :: ']' :: rewriteLinksSpec cmap rest2) := by
  have hll := headLink_length h
  simp only [List.length_cons] at hll
  rw [rewriteLinksSpec, rewriteLinksSpec, List.length_cons, rewriteSpecFuel, h]
  show '[' :: '[' :: (replKey cmap inner ++ ']' :: ']' :: rewriteSpecFuel rest.length cmap rest2) =
    '[' :: '[' :: (replKey cmap inner ++ ']' :: ']' :: rewriteSpecFuel rest2.length cmap rest2)
  have hi := rewriteSpecFuel_invar rest2.length rest2 (le_refl _) rest.length
    rest2.length (by omega) (le_refl _) cmap
  rw [hi]

lemma rewriteLinksSpec_cons_none {c : Char} {rest : List Char}
    (cmap : List (String × String)) (h : headLink (c :: rest) = none) :
    rewriteLinksSpec cmap (c :: rest) = c :: rewriteLinksSpec cmap rest := by
  rw [rewriteLinksSpec, rewriteLinksSpec, List.length_cons, rewriteSpecFuel, h]

lemma take_pref (pref l : List Char) (n : ℕ) :
    (pref ++ l).take (pref.length + n) = pref ++ l.take n := by
  induction pref with
  | nil => simp
  | cons c cs ih => simp [List.length_cons, Nat.succ_add, ih]

lemma drop_pref (pref l : List Char) (n : ℕ) :
    (pref ++ l).drop (pref.length + n) = l.drop n := by
  induction pref with
  | nil => simp
  | cons c cs ih => simp [List.length_cons, Nat.succ_add, ih]

lemma drop_len (pref l : List Char) : (pref ++ l).drop pref.length = l := by
  have h := drop_pref pref l 0
  simpa using h

lemma patch_shift (cmap : List (String × String)) (pref : List Char)
    (m : ℕ × List Char) (nc : List Char) :
    patch cmap (pref.length + m.1, m.2) (pref ++ nc) = pref ++ patch cmap m nc := by
  rw [patch, patch]
  have h1 : pref.length + m.1 + 2 = pref.length + (m.1 + 2) := by omega
  have h2 : pref.length + m.1 + 2 + m.2.length =
      pref.length + (m.1 + 2 + m.2.length) := by omega
  simp only
  rw [h2, h1, take_pref, drop_pref]
  simp

lemma foldr_patch_shift (cmap : List (String × String)) (pref : List Char)
    (ms : List (ℕ × List Char)) (nc : List Char) :
    (ms.map (fun m => (pref.length + m.1, m.2))).foldr (patch cmap) (pref ++ nc) =
      pref ++ ms.foldr (patch cmap) nc := by
  induction ms with
  | nil => rfl
  | cons m ms ih =>
    rw [List.map_cons, List.foldr_cons, List.foldr_cons, ih, patch_shift]

lemma filter_shift (cmap : List (String × String)) (k : ℕ)
    (ms : List (ℕ × List Char)) :
    (ms.map (fun m => (k + m.1, m.2))).filter
        (fun m => (List.lookup (String.mk m.2) cmap).isSome) =
      (ms.filter (fun m => (List.lookup (String.mk m.2) cmap).isSome)).map
        (fun m => (k + m.1, m.2)) := by
  induction ms with
  | nil => rfl
  | cons m ms ih =>
    by_cases h : (List.lookup (String.mk m.2) cmap).isSome <;>
      simp [List.filter_cons, h, ih]

lemma findLinksAux_nil (i : ℕ) : findLinksAux [] i = [] := rfl

lemma findLinksAux_shift (n : ℕ) : ∀ cs : List Char, cs.length ≤ n → ∀ i : ℕ,
    findLinksAux cs i = (findLinksAux cs 0).map (fun m => (i + m.1, m.2)) := by
  induction n with
  | zero =>
    intro cs hcs i
    have hnil : cs = [] := List.length_eq_zero.mp (Nat.le_zero.mp hcs)
    subst hnil
    rw [findLinksAux_nil, findLinksAux_nil]
    rfl
  | succ n ih =>
    intro cs hcs i
    cases cs with
    | nil =>
      rw [findLinksAux_nil, findLinksAux_nil]
      rfl
    | cons c rest =>
      cases hl : headLink (c :: rest) with
      | some p =>
        obtain ⟨inner, rest2⟩ := p
        have hlen : rest2.length ≤ n := by
          have := headLink_length hl
          simp only [List.length_cons] at this hcs
          omega
        rw [findLinksAux_cons_some i hl, findLinksAux_cons_some 0 hl,
          List.map_cons]
        rw [ih rest2 hlen (i + inner.length + 4),
          ih rest2 hlen (0 + inner.length + 4)]
        rw [List.map_map]
        have hi0 : i + 0 = i := by omega
        rw [hi0]
        have hfun : ((fun m : ℕ × List Char => (i + m.1, m.2)) ∘
            (fun m : ℕ × List Char => (0 + inner.length + 4 + m.1, m.2))) =
            (fun m : ℕ × List Char => (i + inner.length + 4 + m.1, m.2)) := by
          funext m
          simp only [Function.comp_apply, Prod.mk.injEq]
          exact ⟨by omega, trivial⟩
        rw [hfun]
      | none =>
        have hlen : rest.length ≤ n := by
          simp only [List.length_cons] at hcs
          omega
        rw [findLinksAux_cons_none i hl, findLinksAux_cons_none 0 hl]
        rw [ih rest hlen (i + 1), ih rest hlen (0 + 1)]
        rw [List.map_map]
        have hfun : ((fun m : ℕ × List Char => (i + m.1, m.2)) ∘
            (fun m : ℕ × List Char => (0 + 1 + m.1, m.2))) =
            (fun m : ℕ × List Char => (i + 1 + m.1, m.2)) := by
          funext m
          simp only [Function.comp_apply, Prod.mk.injEq]
          exact ⟨by omega, trivial⟩
        rw [hfun]

lemma rewriteLinks_eq_spec_aux (n : ℕ) : ∀ cs : List Char, cs.length ≤ n →
    ∀ cmap : List (String × String), rewriteLinks cs cmap = rewriteLinksSpec cmap cs := by
  induction n with
  | zero =>
    intro cs hcs cmap
    have hnil : cs = [] := List.length_eq_zero.mp (Nat.le_zero.mp hcs)
    subst hnil
    rw [rewriteLinks, linkMatches, findLinksAux_nil, rewriteLinksSpec_nil]
    rfl
  | succ n ih =>
    intro cs hcs cmap
    cases cs with
    | nil =>
      rw [rewriteLinks, linkMatches, findLinksAux_nil, rewriteLinksSpec_nil]
      rfl
    | cons c rest =>
      cases hl : headLink (c :: rest) with
      | some p =>
        obtain ⟨inner, rest2⟩ := p
        have hdec := headLink_decomp hl
        have hlen : rest2.length ≤ n := by
          have := headLink_length hl
          simp only [List.length_cons] at this hcs
          omega
        have hsplit : (c :: rest : List Char) =
            ('[' :: '[' :: (inner ++ [']', ']'])) ++ rest2 := by
          rw [hdec]
          simp
        have hx := ih rest2 hlen cmap
        rw [rewriteLinks, linkMatches] at hx
        rw [rewriteLinksSpec_cons_some cmap hl]
        rw [rewriteLinks, linkMatches, findLinksAux_cons_some 0 hl,
          findLinksAux_shift rest2.length rest2 (le_refl _) (0 + inner.length + 4)]
        have hshift : (0 + inner.length + 4 : ℕ) =
            ('[' :: '[' :: (inner ++ [']', ']']) : List Char).length := by
          simp
        rw [hshift]
        by_cases hk : (List.lookup (String.mk inner) cmap).isSome
        · rw [List.filter_cons_of_pos (by simpa using hk), filter_shift,
            List.foldr_cons, hsplit, foldr_patch_shift, hx]
          obtain ⟨nk, hnk⟩ := Option.isSome_iff_exists.mp hk
          rw [patch]
          dsimp only
          rw [hnk]
          have hps : ('[' :: '[' :: (inner ++ [']', ']'])) ++
              rewriteLinksSpec cmap rest2 =
              '[' :: '[' :: (inner ++ ([']', ']'] ++ rewriteLinksSpec cmap rest2)) := by
            simp
          rw [hps]
          have htake : ('[' :: '[' ::
              (inner ++ ([']', ']'] ++ rewriteLinksSpec cmap rest2))).take (0 + 2) =
              ['[', '['] := rfl
          have hdrop : ('[' :: '[' ::
              (inner ++ ([']', ']'] ++ rewriteLinksSpec cmap rest2))).drop
                (0 + 2 + inner.length) =
              [']', ']'] ++ rewriteLinksSpec cmap rest2 := by
            have h1 : (0 + 2 + inner.length : ℕ) = inner.length + 1 + 1 := by omega
            rw [h1, List.drop_succ_cons, List.drop_succ_cons]
            exact drop_len inner _
          rw [htake, hdrop]
          simp [replKey, hnk]
        · have hnone : List.lookup (String.mk inner) cmap = none :=
            Option.not_isSome_iff_eq_none.mp hk
          rw [List.filter_cons_of_neg (by simpa using hk), filter_shift, hsplit,
            foldr_patch_shift, hx]
          simp [replKey, hnone]
      | none =>
        have hlen : rest.length ≤ n := by
          simp only [List.length_cons] at hcs
          omega
        have hx := ih rest hlen cmap
        rw [rewriteLinks, linkMatches] at hx
        rw [rewriteLinksSpec_cons_none cmap hl]
        rw [rewriteLinks, linkMatches, findLinksAux_cons_none 0 hl,
          findLinksAux_shift rest.length rest (le_refl _) (0 + 1), filter_shift]
        have h01 : (0 + 1 : ℕ) = ([c] : List Char).length := by simp
        rw [h01]
        have hcr : (c :: rest : List Char) = [c] ++ rest := by simp
        rw [hcr, foldr_patch_shift, hx]
        rfl

/-- The back-to-front span patching of `handle_note` computes exactly the
structural in-place rewrite of all mapped wiki-links. -/
lemma rewriteLinks_eq_spec (cs : List Char) (cmap : List (String × String)) :
    rewriteLinks cs cmap = rewriteLinksSpec cmap cs :=
  rewriteLinks_eq_spec_aux cs.length cs (le_refl _) cmap

/-- A note file path split into directory (`path.dirname`), base name
(`path.splitext(path.basename(...))[0]`) and extension. -/
structure NotePath where
  dir : String
  base : String
  ext : String
deriving DecidableEq

def fullName (p : NotePath) : String := p.dir ++ "/" ++ p.base ++ p.ext

/-- Filesystem effects performed by `handle_note` (`shutil.move` and the
final file write). -/
inductive FsAction where
  | move (src dst : String)
  | write (dst : String) (contents : List Char)
deriving DecidableEq

/-- Console output of `handle_note`, abstracted to one event per printed
line: a link rewrite (file, match position, old inner text, new key) or a
rename. -/
inductive PrintEvent where
  | rewriteLink (file : String) (pos : ℕ) (inner : List Char) (newKey : String)
  | rename (src dst : String)
deriving DecidableEq

structure HandleResult where
  printed : List PrintEvent
  actions : List FsAction
  new_contents : List Char
  new_file : NotePath
deriving DecidableEq

/-- `handle_note(note_file, citekey_map, verbose, dry_run)` from
`convert_old_notes.py`: rewrite all mapped wiki-links back to front, print
each change when `dry_run or verbose`, rename the file when its base name is
a mapped key (the new name hard-codes the `.md` extension, which is the
extension of every file the rewrite phase feeds in), and touch the
filesystem only when not in dry-run mode.  The link print events appear in
the processing (back-to-front) order of the Python loop. -/
def handle_note (note : NotePath) (contents : List Char)
    (cmap : List (String × String)) (verbose dry_run : Bool) : HandleResult :=
  let print_output := dry_run || verbose
  let new_contents := rewriteLinks contents cmap
  let printedLinks : List PrintEvent :=
    if print_output then
      ((linkMatches contents cmap).map (fun m =>
        PrintEvent.rewriteLink (fullName note) m.1 m.2
          ((List.lookup (String.mk m.2) cmap).getD ""))).reverse
    else []
  let new_file : NotePath :=
    match List.lookup note.base cmap with
    | some nk => ⟨note.dir, nk, ".md"⟩
    | none => note
  let printedMove : List PrintEvent :=
    if print_output && (List.lookup note.base cmap).isSome then
      [PrintEvent.rename (fullName note) (fullName new_file)]
    else []
  let acts : List FsAction :=
    if dry_run then []
    else
      (if fullName note ≠ fullName new_file then
        [FsAction.move (fullName note) (fullName new_file)]
      else []) ++ [FsAction.write (fullName new_file) new_contents]
  ⟨printedLinks ++ printedMove, acts, new_contents, new_file⟩

/-- C6: `handle_note` rewrites every wiki-link whose inner text is an old key
to the new key with the delimiters intact — the back-to-front span patching
equals the structural in-place rewrite, so earlier replacements never
invalidate later offsets — and a file whose base name is an old key is
renamed to the new key with the same (`.md`) extension. -/
theorem handle_note_rewrite (note : NotePath) (contents : List Char)
    (cmap : List (String × String)) (verbose dry_run : Bool) :
    (handle_note note contents cmap verbose dry_run).new_contents =
      rewriteLinksSpec cmap contents ∧
    (note.ext = ".md" →
      (∀ nk, List.lookup note.base cmap = some nk →
        (handle_note note contents cmap verbose dry_run).new_file =
          ⟨note.dir, nk, note.ext⟩) ∧
      (List.lookup note.base cmap = none →
        (handle_note note contents cmap verbose dry_run).new_file = note)) := by
  refine ⟨?_, fun hext => ⟨?_, ?_⟩⟩
  · show rewriteLinks contents cmap = rewriteLinksSpec cmap contents
    exact rewriteLinks_eq_spec contents cmap
  · intro nk hnk
    show (match List.lookup note.base cmap with
      | some nk => (⟨note.dir, nk, ".md"⟩ : NotePath)
      | none => note) = _
    rw [hnk, hext]
  · intro hnone
    show (match List.lookup note.base cmap with
      | some nk => (⟨note.dir, nk, ".md"⟩ : NotePath)
      | none => note) = note
    rw [hnone]

/-- Witness for C6: a note named after an old key, containing a wiki-link to
an old key, gets its link text rewritten and is renamed, extension kept. -/
theorem handle_note_rewrite_w :
    (handle_note ⟨"vault", "@oldkey", ".md"⟩ ("see [[@oldkey]] ok").data
        [("@oldkey", "@newkey")] false false).new_contents =
      rewriteLinksSpec [("@oldkey", "@newkey")] ("see [[@oldkey]] ok").data ∧
    (handle_note ⟨"vault", "@oldkey", ".md"⟩ ("see [[@oldkey]] ok").data
        [("@oldkey", "@newkey")] false false).new_file =
      ⟨"vault", "@newkey", ".md"⟩ ∧
    rewriteLinksSpec [("@oldkey", "@newkey")] ("see [[@oldkey]] ok").data =
      ("see [[@newkey]] ok").data :=
  ⟨(handle_note_rewrite ⟨"vault", "@oldkey", ".md"⟩ ("see [[@oldkey]] ok").data
      [("@oldkey", "@newkey")] false false).1,
   ((handle_note_rewrite ⟨"vault", "@oldkey", ".md"⟩ ("see [[@oldkey]] ok").data
      [("@oldkey", "@newkey")] false false).2 rfl).1 "@newkey" (by decide),
   by decide⟩

/-- C7: with `dry_run` set, `handle_note` performs the full scan, computing
the same rewrite and printing the same intended changes as a verbose wet
run — one print event per mapped link and one per intended rename — while
performing no filesystem action at all. -/
theorem handle_note_dry_run (note : NotePath) (contents : List Char)
    (cmap : List (String × String)) (verbose : Bool) :
    (handle_note note contents cmap verbose true).actions = [] ∧
    (handle_note note contents cmap verbose true).new_contents =
      (handle_note note contents cmap verbose false).new_contents ∧
    (handle_note note contents cmap verbose true).printed =
      (handle_note note contents cmap true false).printed ∧
    (∀ m ∈ linkMatches contents cmap,
      PrintEvent.rewriteLink (fullName note) m.1 m.2
          ((List.lookup (String.mk m.2) cmap).getD "") ∈
        (handle_note note contents cmap verbose true).printed) ∧
    (∀ nk, List.lookup note.base cmap = some nk →
      PrintEvent.rename (fullName note)
          (fullName ⟨note.dir, nk, ".md"⟩) ∈
        (handle_note note contents cmap verbose true).printed) := by
  refine ⟨rfl, rfl, rfl, ?_, ?_⟩
  · intro m hm
    show _ ∈ (if (true || verbose : Bool) then _ else ([] : List PrintEvent)) ++ _
    simp only [Bool.true_or, if_pos]
    apply List.mem_append_left
    rw [List.mem_reverse]
    exact List.mem_map_of_mem _ hm
  · intro nk hnk
    show _ ∈ _ ++ (if (true || verbose : Bool) && (List.lookup note.base cmap).isSome
      then _ else ([] : List PrintEvent))
    apply List.mem_append_right
    rw [hnk]
    simp only [Bool.true_or, Option.isSome_some, Bool.and_true, if_pos]
    exact List.mem_singleton_self _

/-- Witness for C7: on a concrete note the dry run performs no filesystem
action yet reports the link rewrite and the rename. -/
theorem handle_note_dry_run_w :
    (handle_note ⟨"vault", "@oldkey", ".md"⟩ ("see [[@oldkey]] ok").data
        [("@oldkey", "@newkey")] false true).actions = [] ∧
    PrintEvent.rewriteLink (fullName ⟨"vault", "@oldkey", ".md"⟩) 4
        ("@oldkey").data
        ((List.lookup (String.mk ("@oldkey").data) [("@oldkey", "@newkey")]).getD "") ∈
      (handle_note ⟨"vault", "@oldkey", ".md"⟩ ("see [[@oldkey]] ok").data
        [("@oldkey", "@newkey")] false true).printed ∧
    PrintEvent.rename (fullName ⟨"vault", "@oldkey", ".md"⟩)
        (fullName ⟨"vault", "@newkey", ".md"⟩) ∈
      (handle_note ⟨"vault", "@oldkey", ".md"⟩ ("see [[@oldkey]] ok").data
        [("@oldkey", "@newkey")] false true).printed :=
  ⟨(handle_note_dry_run ⟨"vault", "@oldkey", ".md"⟩ ("see [[@oldkey]] ok").data
      [("@oldkey", "@newkey")] false).1,
   (handle_note_dry_run ⟨"vault", "@oldkey", ".md"⟩ ("see [[@oldkey]] ok").data
      [("@oldkey", "@newkey")] false).2.2.2.1 (4, ("@oldkey").data) (by decide),
   (handle_note_dry_run ⟨"vault", "@oldkey", ".md"⟩ ("see [[@oldkey]] ok").data
      [("@oldkey", "@newkey")] false).2.2.2.2 "@newkey" (by decide)⟩

/-- The data carried by `LitNoteException` (the Python class interpolates
exactly these four values into its message). -/
structure LitNoteError where
  filename : String
  line : String
  expected_line : String
  line_number : ℕ
deriving DecidableEq

/-- A `\w` word character (ASCII range of Python's regex class). -/
def isWordChar (c : Char) : Bool := c.isAlphanum || c = '_'

/-- The source text of `header_entry_exp`, carried by header errors. -/
def headerPat : String := "(\\w+): (.*)"

/-- `header_entry_exp.match(line)` for the anchored pattern
`(\w+): (.*)`: a maximal non-empty run of word characters, a colon, a
space, and the rest of the line as the value. -/
def matchHeader (line : String) : Option (String × String) :=
  let cs := line.data
  let w := cs.takeWhile isWordChar
  if w.isEmpty then none
  else
    match cs.drop w.length with
    | ':' :: ' ' :: rest => some (String.mk w, String.mk rest)
    | _ => none

/-- Python dict assignment `data[k] = v`: overwrite in place or append. -/
def setField (data : List (String × String)) (k v : String) :
    List (String × String) :=
  if (List.lookup k data).isSome then
    data.map (fun kv => if kv.1 = k then (k, v) else kv)
  else data ++ [(k, v)]

/-- The `while True` loop of `read_file` over the remaining lines;
`line_num` counts the header lines already consumed.  At end of file
`readline` returns `""`, which fails the header pattern. -/
def readLoop (filename : String) : List String → ℕ → List (String × String) →
    Except LitNoteError (List (String × String))
  | [], line_num, _ => .error ⟨filename, "", headerPat, line_num + 1⟩
  | l :: rest, line_num, data =>
    if l = "---" then .ok data
    else
      match matchHeader l with
      | some kv => readLoop filename rest (line_num + 1) (setField data kv.1 kv.2)
      | none => .error ⟨filename, l, headerPat, line_num + 1⟩

/-- `read_file` from `convert_old_notes.py`, over the newline-stripped lines
of the file: the first line must be the opening `---` delimiter, every
following line up to the closing `---` must match the header pattern, and
the parsed `field: value` pairs are returned as a dict. -/
def read_file (filename : String) (lines : List String) :
    Except LitNoteError (List (String × String)) :=
  match lines with
  | [] => .error ⟨filename, "", "---\n", 0⟩
  | first :: rest =>
    if first = "---" then readLoop filename rest 0 []
    else .error ⟨filename, first, "---\n", 0⟩

/-- The dict accumulated from a list of well-formed header lines. -/
def buildData (data : List (String × String)) (hs : List String) :
    List (String × String) :=
  hs.foldl (fun d h =>
    match matchHeader h with
    | some kv => setField d kv.1 kv.2
    | none => d) data

lemma buildData_cons_some {h : String} {kv : String × String}
    (hkv : matchHeader h = some kv) (data : List (String × String))
    (hs : List String) :
    buildData data (h :: hs) = buildData (setField data kv.1 kv.2) hs := by
  rw [buildData, List.foldl_cons, hkv]
  rfl

lemma readLoop_ok (fn : String) (hs : List String) : ∀ (rest : List String)
    (ln : ℕ) (data : List (String × String)),
    (∀ h ∈ hs, h ≠ "---" ∧ (matchHeader h).isSome) →
    readLoop fn (hs ++ "---" :: rest) ln data = .ok (buildData data hs) := by
  induction hs with
  | nil =>
    intro rest ln data _
    rw [List.nil_append, readLoop, if_pos rfl]
    rfl
  | cons h hs ih =>
    intro rest ln data hok
    obtain ⟨hne, hsome⟩ := hok h (List.mem_cons_self _ _)
    obtain ⟨kv, hkv⟩ := Option.isSome_iff_exists.mp hsome
    rw [List.cons_append, readLoop, if_neg hne, hkv]
    show readLoop fn (hs ++ "---" :: rest) (ln + 1) (setField data kv.1 kv.2) =
      Except.ok (buildData data (h :: hs))
    rw [ih rest (ln + 1) (setField data kv.1 kv.2)
      (fun h' hh' => hok h' (List.mem_cons_of_mem _ hh'))]
    rw [buildData_cons_some hkv]

lemma readLoop_badline (fn : String) (hs : List String) : ∀ (l : String)
    (rest : List String) (ln : ℕ) (data : List (String × String)),
    (∀ h ∈ hs, h ≠ "---" ∧ (matchHeader h).isSome) →
    l ≠ "---" → matchHeader l = none →
    readLoop fn (hs ++ l :: rest) ln data =
      .error ⟨fn, l, headerPat, ln + hs.length + 1⟩ := by
  induction hs with
  | nil =>
    intro l rest ln data _ hne hnm
    rw [List.nil_append, readLoop, if_neg hne, hnm]
    rfl
  | cons h hs ih =>
    intro l rest ln data hok hne hnm
    obtain ⟨hne', hsome⟩ := hok h (List.mem_cons_self _ _)
    obtain ⟨kv, hkv⟩ := Option.isSome_iff_exists.mp hsome
    rw [List.cons_append, readLoop, if_neg hne', hkv]
    show readLoop fn (hs ++ l :: rest) (ln + 1) (setField data kv.1 kv.2) =
      Except.error ⟨fn, l, headerPat, ln + (h :: hs).length + 1⟩
    rw [ih l rest (ln + 1) (setField data kv.1 kv.2)
      (fun h' hh' => hok h' (List.mem_cons_of_mem _ hh')) hne hnm]
    have : ln + 1 + hs.length + 1 = ln + (h :: hs).length + 1 := by
      simp [List.length_cons]
      omega
    rw [this]

lemma readLoop_eof (fn : String) (hs : List String) : ∀ (ln : ℕ)
    (data : List (String × String)),
    (∀ h ∈ hs, h ≠ "---" ∧ (matchHeader h).isSome) →
    readLoop fn hs ln data = .error ⟨fn, "", headerPat, ln + hs.length + 1⟩ := by
  induction hs with
  | nil =>
    intro ln data _
    rw [readLoop]
    simp
  | cons h hs ih =>
    intro ln data hok
    obtain ⟨hne, hsome⟩ := hok h (List.mem_cons_self _ _)
    obtain ⟨kv, hkv⟩ := Option.isSome_iff_exists.mp hsome
    rw [readLoop, if_neg hne, hkv]
    show readLoop fn hs (ln + 1) (setField data kv.1 kv.2) =
      Except.error ⟨fn, "", headerPat, ln + (h :: hs).length + 1⟩
    rw [ih (ln + 1) (setField data kv.1 kv.2)
      (fun h' hh' => hok h' (List.mem_cons_of_mem _ hh'))]
    have : ln + 1 + hs.length + 1 = ln + (h :: hs).length + 1 := by
      simp [List.length_cons]
      omega
    rw [this]

lemma readLoop_ok_inv (fn : String) : ∀ (ls : List String) (ln : ℕ)
    (data d : List (String × String)),
    readLoop fn ls ln data = .ok d →
    ∃ hs rest, ls = hs ++ "---" :: rest ∧
      (∀ h ∈ hs, h ≠ "---" ∧ (matchHeader h).isSome) ∧
      d = buildData data hs := by
  intro ls
  induction ls with
  | nil =>
    intro ln data d h
    rw [readLoop] at h
    cases h
  | cons l rest ih =>
    intro ln data d h
    rw [readLoop] at h
    by_cases hne : l = "---"
    · rw [if_pos hne] at h
      injection h with h
      subst hne
      exact ⟨[], rest, rfl, by simp, by rw [h]; rfl⟩
    · rw [if_neg hne] at h
      cases hm : matchHeader l with
      | none => rw [hm] at h; cases h
      | some kv =>
        rw [hm] at h
        obtain ⟨hs, rest', hdec, hok, hd⟩ := ih (ln + 1) (setField data kv.1 kv.2) d h
        refine ⟨l :: hs, rest', by rw [hdec]; rfl, ?_, ?_⟩
        · intro h' hh'
          rcases List.mem_cons.mp hh' with h'' | h''
          · subst h''
            exact ⟨hne, by rw [hm]; rfl⟩
          · exact hok h' h''
        · rw [hd, buildData_cons_some hm]

/-- C8: `read_file` raises a `LitNoteException` exactly when the front-matter
is malformed — first line not `---`, or a pre-closing line failing the
`word: rest-of-line` pattern (the end-of-file empty line included) — with the
error carrying the filename, the offending line, the expected pattern and the
line number; on well-formed input it returns the header mapping. -/
theorem read_file_spec (fn : String) (lines : List String) :
    (lines = [] → read_file fn lines = .error ⟨fn, "", "---\n", 0⟩) ∧
    (∀ first rest, lines = first :: rest → first ≠ "---" →
      read_file fn lines = .error ⟨fn, first, "---\n", 0⟩) ∧
    (∀ hs l rest, lines = "---" :: (hs ++ l :: rest) →
      (∀ h ∈ hs, h ≠ "---" ∧ (matchHeader h).isSome) → l ≠ "---" →
      matchHeader l = none →
      read_file fn lines = .error ⟨fn, l, headerPat, hs.length + 1⟩) ∧
    (∀ hs rest, lines = "---" :: (hs ++ "---" :: rest) →
      (∀ h ∈ hs, h ≠ "---" ∧ (matchHeader h).isSome) →
      read_file fn lines = .ok (buildData [] hs)) ∧
    (∀ d, read_file fn lines = .ok d →
      ∃ hs rest, lines = "---" :: (hs ++ "---" :: rest) ∧
        (∀ h ∈ hs, h ≠ "---" ∧ (matchHeader h).isSome) ∧
        d = buildData [] hs) := by
  refine ⟨?_, ?_, ?_, ?_, ?_⟩
  · intro hnil
    rw [hnil, read_file]
  · intro first rest hdec hne
    rw [hdec, read_file, if_neg hne]
  · intro hs l rest hdec hok hne hnm
    rw [hdec, read_file, if_pos rfl]
    have := readLoop_badline fn hs l rest 0 [] hok hne hnm
    rw [this]
    have h0 : (0 : ℕ) + hs.length + 1 = hs.length + 1 := by omega
    rw [h0]
  · intro hs rest hdec hok
    rw [hdec, read_file, if_pos rfl]
    exact readLoop_ok fn hs rest 0 [] hok
  · intro d hok
    cases lines with
    | nil => rw [read_file] at hok; cases hok
    | cons first rest =>
      rw [read_file] at hok
      by_cases hne : first = "---"
      · rw [if_pos hne] at hok
        obtain ⟨hs, rest', hdec, hokh, hd⟩ := readLoop_ok_inv fn rest 0 [] d hok
        exact ⟨hs, rest', by rw [hne, hdec], hokh, hd⟩
      · rw [if_neg hne] at hok
        cases hok

/-- Witness for C8: a well-formed note parses to its header dict; a
malformed header line yields the structured error with the offending line,
pattern and line number. -/
theorem read_file_spec_w :
    read_file "n.md" ["---", "author: X", "---", "body"] =
      .ok (buildData [] ["author: X"]) ∧
    read_file "n.md" ["---", "bad line"] =
      .error ⟨"n.md", "bad line", headerPat, 1⟩ ∧
    buildData [] ["author: X"] = [("author", "X")] :=
  ⟨(read_file_spec "n.md" ["---", "author: X", "---", "body"]).2.2.2.1
      ["author: X"] ["body"] rfl (by decide),
   (read_file_spec "n.md" ["---", "bad line"]).2.2.1
      [] "bad line" [] rfl (by decide) (by decide) (by decide),
   by decide⟩

/-- C10: `read_file` is a total function of the line list (the embedding is
structurally recursive, so it terminates on every finite input); when no
closing `---` follows the opening delimiter the loop reaches end of file,
where the empty line fails the header pattern and a structured error is
raised — the function never returns a (partial) header on such input. -/
theorem read_file_unclosed (fn : String) (lines : List String)
    (hnc : "---" ∉ lines.tail) :
    (∃ e, read_file fn lines = .error e) ∧
    (∀ d, read_file fn lines ≠ .ok d) ∧
    (∀ rest, lines = "---" :: rest →
      (∀ h ∈ rest, (matchHeader h).isSome) →
      read_file fn lines = .error ⟨fn, "", headerPat, rest.length + 1⟩) := by
  have hnok : ∀ d, read_file fn lines ≠ .ok d := by
    intro d hok
    cases lines with
    | nil => rw [read_file] at hok; cases hok
    | cons first rest =>
      rw [read_file] at hok
      by_cases hne : first = "---"
      · rw [if_pos hne] at hok
        obtain ⟨hs, rest', hdec, _, _⟩ := readLoop_ok_inv fn rest 0 [] d hok
        refine hnc ?_
        show "---" ∈ rest
        rw [hdec]
        exact List.mem_append_right _ (List.mem_cons_self _ _)
      · rw [if_neg hne] at hok
        cases hok
  refine ⟨?_, hnok, ?_⟩
  · cases hres : read_file fn lines with
    | error e => exact ⟨e, rfl⟩
    | ok d => exact absurd hres (hnok d)
  · intro rest hdec hok
    rw [hdec, read_file, if_pos rfl]
    have hok' : ∀ h ∈ rest, h ≠ "---" ∧ (matchHeader h).isSome := by
      intro h hh
      refine ⟨?_, hok h hh⟩
      intro hcontra
      subst hcontra
      exact hnc (by rw [hdec]; exact hh)
    have := readLoop_eof fn rest 0 [] hok'
    rw [this]
    have h0 : (0 : ℕ) + rest.length + 1 = rest.length + 1 := by omega
    rw [h0]

/-- Witness for C10: a note whose front matter is never closed produces the
end-of-file error (empty offending line, line number one past the header). -/
theorem read_file_unclosed_w :
    (∃ e, read_file "n.md" ["---", "a: b"] = .error e) ∧
    read_file "n.md" ["---", "a: b"] =
      .error ⟨"n.md", "", headerPat, 2⟩ :=
  ⟨(read_file_unclosed "n.md" ["---", "a: b"] (by decide)).1,
   (read_file_unclosed "n.md" ["---", "a: b"] (by decide)).2.2
      ["a: b"] rfl (by decide)⟩

/-- The scan loop of `gen_old_entries` over the globbed note files (each
given by its path and its lines), with the `header_data` accumulator: the
citation key is the file's base name; a key already registered raises the
duplicate error (before any read); a `LitNoteException` from `read_file` is
caught and the file skipped. -/
def gen_old_entries_go : List (NotePath × List String) →
    List (String × List (String × String)) →
    Except String (List (String × List (String × String)))
  | [], acc => .ok acc
  | (p, ls) :: rest, acc =>
    if (List.lookup p.base acc).isSome then
      .error (p.base ++ " duplicate entry")
    else
      match read_file (fullName p) ls with
      | .ok d => gen_old_entries_go rest (acc ++ [(p.base, d)])
      | .error _ => gen_old_entries_go rest acc

/-- `gen_old_entries` from `convert_old_notes.py` over the list of globbed
note files. -/
def gen_old_entries (files : List (NotePath × List String)) :
    Except String (List (String × List (String × String))) :=
  gen_old_entries_go files []

lemma gen_go_append_ok : ∀ (xs : List (NotePath × List String))
    (acc acc' : List (String × List (String × String))),
    gen_old_entries_go xs acc = .ok acc' →
    ∀ ys, gen_old_entries_go (xs ++ ys) acc = gen_old_entries_go ys acc' := by
  intro xs
  induction xs with
  | nil =>
    intro acc acc' h ys
    rw [gen_old_entries_go] at h
    injection h with h
    subst h
    rw [List.nil_append]
  | cons f rest ih =>
    intro acc acc' h ys
    obtain ⟨p, ls⟩ := f
    rw [gen_old_entries_go] at h
    rw [List.cons_append, gen_old_entries_go]
    by_cases hdup : (List.lookup p.base acc).isSome
    · rw [if_pos hdup] at h
      cases h
    · rw [if_neg hdup] at h
      rw [if_neg hdup]
      cases hr : read_file (fullName p) ls with
      | ok d =>
        rw [hr] at h
        exact ih (acc ++ [(p.base, d)]) acc' h ys
      | error e =>
        rw [hr] at h
        exact ih acc acc' h ys

lemma lookup_snoc_self (k v' : String)
    (l : List (String × List (String × String)))
    (d : List (String × String)) :
    (List.lookup k (l ++ [(k, d)])).isSome = true := by
  induction l with
  | nil => simp [List.lookup]
  | cons a rest ih =>
    rw [List.cons_append, List.lookup]
    cases hk : (k == a.1) with
    | true => rfl
    | false => exact ih

/-- C9 as stated is refuted: two note files resolving to the same citation
key need not abort — when the earlier file is malformed it is skipped
*without registering its key*, so the later file with the same key is
accepted and a mapping is returned. -/
theorem gen_old_entries_c9_cex :
    (⟨"v/a", "@k", ".md"⟩ : NotePath).base = (⟨"v/b", "@k", ".md"⟩ : NotePath).base ∧
    gen_old_entries [(⟨"v/a", "@k", ".md"⟩, ["nope"]),
                     (⟨"v/b", "@k", ".md"⟩, ["---", "---"])] =
      .ok [("@k", [])] :=
  ⟨rfl, rfl⟩

/-- C9 (amended): a file whose citation key matches one already registered
by an earlier *successfully read* file aborts the scan with the duplicate
error; a file whose `read_file` raises is skipped — its key is not
registered and the scan continues as if the file were absent; and a
successfully read, non-duplicate file does register its key. -/
theorem gen_old_entries_spec (ps post : List (NotePath × List String))
    (g : NotePath × List String)
    (acc : List (String × List (String × String))) :
    (gen_old_entries ps = .ok acc →
      (List.lookup g.1.base acc).isSome →
      gen_old_entries (ps ++ g :: post) =
        .error (g.1.base ++ " duplicate entry")) ∧
    (gen_old_entries ps = .ok acc →
      List.lookup g.1.base acc = none →
      (∃ e, read_file (fullName g.1) g.2 = .error e) →
      gen_old_entries (ps ++ g :: post) = gen_old_entries (ps ++ post)) ∧
    (gen_old_entries ps = .ok acc →
      List.lookup g.1.base acc = none →
      (∀ d, read_file (fullName g.1) g.2 = .ok d →
        gen_old_entries_go (ps ++ [g]) [] = .ok (acc ++ [(g.1.base, d)]) ∧
        (List.lookup g.1.base (acc ++ [(g.1.base, d)])).isSome)) := by
  obtain ⟨p, ls⟩ := g
  refine ⟨?_, ?_, ?_⟩
  · intro hok hreg
    rw [gen_old_entries] at hok ⊢
    rw [gen_go_append_ok ps [] acc hok, gen_old_entries_go, if_pos hreg]
  · intro hok hnone hrerr
    obtain ⟨e, he⟩ := hrerr
    rw [gen_old_entries] at hok ⊢
    rw [gen_go_append_ok ps [] acc hok, gen_old_entries_go,
      if_neg (by rw [hnone]; simp), he]
    rw [show gen_old_entries (ps ++ post) = gen_old_entries_go post acc from by
      rw [gen_old_entries, gen_go_append_ok ps [] acc hok]]
  · intro hok hnone d hd
    rw [gen_old_entries] at hok
    constructor
    · rw [gen_go_append_ok ps [] acc hok, gen_old_entries_go,
        if_neg (by rw [hnone]; simp), hd]
      rfl
    · exact lookup_snoc_self p.base "" acc d

/-- Witness for C9 (amended): a duplicate of a successfully registered key
aborts, and a malformed file is skipped with the scan continuing. -/
theorem gen_old_entries_spec_w :
    gen_old_entries [(⟨"v", "@k", ".md"⟩, ["---", "---"]),
                     (⟨"w", "@k", ".md"⟩, ["---", "---"])] =
      .error ("@k" ++ " duplicate entry") ∧
    gen_old_entries [(⟨"v/a", "@k", ".md"⟩, ["nope"]),
                     (⟨"v/b", "@j", ".md"⟩, ["---", "---"])] =
      gen_old_entries [(⟨"v/b", "@j", ".md"⟩, ["---", "---"])] :=
  ⟨(gen_old_entries_spec [(⟨"v", "@k", ".md"⟩, ["---", "---"])] []
      (⟨"w", "@k", ".md"⟩, ["---", "---"]) [("@k", [])]).1 rfl (by decide),
   (gen_old_entries_spec [] [(⟨"v/b", "@j", ".md"⟩, ["---", "---"])]
      (⟨"v/a", "@k", ".md"⟩, ["nope"]) []).2.1 rfl (by decide)
      ⟨⟨"v/a/@k.md", "nope", "---\n", 0⟩, rfl⟩⟩

